import Mathlib

/-!
Verification development for the tab-stash in-memory bookmark-tree
synchronization model.

The indexed tree store, the stash-root resolver and the `ensureStashRoot`
race contract live in `src/model/bookmarks.ts`, which is not part of the
available sources (only its test suite `src/model/bookmarks.test.ts` and its
caller `src/model/index.ts` are).  Those parts are therefore modelled from
the specification (each such definition carries a doc comment saying so).
`Model.attempt`, `Model.copying`, `Model.isURLStashable` and the cycle
check of `Model.putItemsInFolder` are embedded from `src/model/index.ts`.
-/

namespace TabStash

/-- Id of the implicit root of the mirrored tree.  The implicit root itself
is not an entry of the by-id map; its children list is kept in the
by-parent index under this key. -/
def ROOT : String := "__root__"

/-- Shape discrimination of a tree node: bookmark (with URL), folder, or
separator. -/
inductive NodeKind where
  | bookmark (url : String)
  | folder
  | separator
deriving DecidableEq

/-- A node of the mirrored bookmark tree.  Common fields of the spec's
tagged union (§3): `parentId`, `index`, `title`, plus the variant tag.
(`dateAdded` plays no role in any claim and is omitted.) -/
structure Node where
  parentId : Option String
  index : Nat
  title : String
  kind : NodeKind
deriving DecidableEq

/-- The uniform internal event shape fed into the store by the event
bridge (§4.1 `apply(change)`). -/
inductive Event where
  | insert (id : String) (title : String) (kind : NodeKind) (parentId : String) (index : Nat)
  | update (id : String) (newTitle : Option String) (newUrl : Option String)
  | move (id : String) (parentId : String) (index : Nat)
  | remove (id : String)
  | removeTree (id : String)
deriving DecidableEq

/-- Association-list lookup (first entry with the given key). -/
def lookupA {α : Type} : List (String × α) → String → Option α
  | [], _ => none
  | (k, v) :: t, x => if k = x then some v else lookupA t x

/-- Remove every entry with the given key from an association list. -/
def eraseA {α : Type} : List (String × α) → String → List (String × α)
  | [], _ => []
  | (k, v) :: t, x => if k = x then eraseA t x else (k, v) :: eraseA t x

/-- Insert-or-replace a key in an association list. -/
def upsertA {α : Type} (l : List (String × α)) (k : String) (v : α) : List (String × α) :=
  (k, v) :: eraseA l k

/-- Rewrite every value of an association list, keeping keys. -/
def mapValues {α : Type} (f : String → α → α) : List (String × α) → List (String × α)
  | [] => []
  | (k, v) :: t => (k, f k v) :: mapValues f t

/-- Number of occurrences of a string in a list. -/
def countS : List String → String → Nat
  | [], _ => 0
  | h :: t, x => (if h = x then 1 else 0) + countS t x

/-- Remove every occurrence of a string from a list. -/
def removeAll : List String → String → List String
  | [], _ => []
  | h :: t, x => if h = x then removeAll t x else h :: removeAll t x

/-- Boolean membership test on lists of strings. -/
def memB : List String → String → Bool
  | [], _ => false
  | h :: t, x => if h = x then true else memB t x

/-- Insert an element at a position, clamping to the end of the list (the
external store clamps out-of-range indices the same way). -/
def insertAt : Nat → String → List String → List String
  | 0, a, l => a :: l
  | _ + 1, a, [] => [a]
  | n + 1, a, h :: t => h :: insertAt n a t

/-- Element of a list at a position, if any. -/
def nthS : List String → Nat → Option String
  | [], _ => none
  | h :: _, 0 => some h
  | _ :: t, n + 1 => nthS t n

/-- Position of the first occurrence of a string in a list. -/
def posIn : List String → String → Option Nat
  | [], _ => none
  | h :: t, x => if h = x then some 0 else (posIn t x).map (· + 1)

/-- First (parent, position) at which an id occurs among the indexed
children lists. -/
def findPlacement : List (String × List String) → String → Option (String × Nat)
  | [], _ => none
  | (p, l) :: t, x =>
    match posIn l x with
    | some i => some (p, i)
    | none => findPlacement t x

/-- Children list recorded for a parent (empty when the parent has no
entry). -/
def kidsOfL (ks : List (String × List String)) (p : String) : List String :=
  (lookupA ks p).getD []

/-- Total number of occurrences of an id across all children lists. -/
def occCount : List (String × List String) → String → Nat
  | [], _ => 0
  | (_, l) :: t, x => countS l x + occCount t x

/-- Remove an id from every list of a parent-to-children (or
url-to-members) index. -/
def detachK (ks : List (String × List String)) (x : String) : List (String × List String) :=
  mapValues (fun _ l => removeAll l x) ks

/-- The keys of an association list are pairwise distinct. -/
def nodupKeys {α : Type} : List (String × α) → Prop
  | [] => True
  | (k, _) :: t => lookupA t k = none ∧ nodupKeys t

/-- Modelled from the spec: the Indexed Tree Store (§4.1) of
`src/model/bookmarks.ts` (not in src/), holding the three mutually
consistent indexes: by-id (`nodes`), by-parent (`kids`) and by-url
(`byUrl`). -/
structure Store where
  nodes : List (String × Node)
  kids : List (String × List String)
  byUrl : List (String × List String)
deriving DecidableEq

/-- The store before the initial bulk load: all indexes empty. -/
def emptyStore : Store := ⟨[], [], []⟩

/-- Modelled from the spec: after a structural change, the `parentId` and
`index` fields of every node are brought in line with the node's actual
placement in the by-parent index (the spec's "shifting `index` of later
siblings" bookkeeping, §4.1). -/
def reindex (s : Store) : Store :=
  ⟨mapValues
      (fun k n =>
        match findPlacement s.kids k with
        | some pi => { n with parentId := some pi.1, index := pi.2 }
        | none => n)
      s.nodes,
    s.kids, s.byUrl⟩

/-- Modelled from the spec: detach an id from every children list and
re-insert it at the requested position of the target parent's list
(§4.1 Insert/Move). -/
def placeKids (ks : List (String × List String)) (x p : String) (i : Nat) :
    List (String × List String) :=
  let d := detachK ks x
  upsertA d p (insertAt i x (kidsOfL d p))

/-- Modelled from the spec: re-bucket an id in the by-url index — remove it
from every bucket, then add it to the bucket of its current URL if it is a
bookmark (§3 URL index invariant). -/
def urlPlace (bu : List (String × List String)) (x : String) (nd : Node) :
    List (String × List String) :=
  match nd.kind with
  | NodeKind.bookmark u =>
    let d := detachK bu x
    upsertA d u (x :: kidsOfL d u)
  | _ => detachK bu x

/-- Modelled from the spec: assign a node at a position under a parent,
overwriting any node already carrying the same id (duplicate-create race,
§4.1), updating all three indexes.  No-op when the target parent does not
exist. -/
def placeNode (s : Store) (x : String) (nd : Node) (p : String) (i : Nat) : Store :=
  if p = ROOT ∨ lookupA s.nodes p ≠ none then
    reindex
      ⟨upsertA s.nodes x nd, placeKids s.kids x p i, urlPlace s.byUrl x nd⟩
  else s

/-- Modelled from the spec: remove a childless node from all indexes
(§4.1 Remove).  No-op when the id is absent (idempotence against duplicate
notifications) or when the node still has children (structural failure,
all-or-nothing). -/
def removeLeaf (s : Store) (x : String) : Store :=
  if lookupA s.nodes x ≠ none ∧ kidsOfL s.kids x = [] then
    reindex
      ⟨eraseA s.nodes x, detachK (eraseA s.kids x) x, detachK s.byUrl x⟩
  else s

/-- Merge an update patch (title and/or url) into a node's fields
(§4.1 Update). -/
def patchFields (nd : Node) (t : Option String) (u : Option String) : Node :=
  let nd1 :=
    match t with
    | some tt => { nd with title := tt }
    | none => nd
  match u, nd1.kind with
  | some uu, NodeKind.bookmark _ => { nd1 with kind := NodeKind.bookmark uu }
  | _, _ => nd1

/-- Modelled from the spec: apply an Update event — merge patch fields into
the existing node and atomically move it between url-index buckets
(§4.1 Update).  No-op when the id is absent. -/
def patchNode (s : Store) (x : String) (t : Option String) (u : Option String) : Store :=
  match lookupA s.nodes x with
  | none => s
  | some nd =>
    let nd2 := patchFields nd t u
    reindex ⟨upsertA s.nodes x nd2, s.kids, urlPlace s.byUrl x nd2⟩

/-- Ancestor chain of a node: the node itself followed by each ancestor up
to the tree root, obtained by chasing `parentId` (fuel-bounded).  This is
the `pathTo`-based set used by the cycle check of `Model.putItemsInFolder`
(src/model/index.ts lines 514-524). -/
def ancChain : Nat → List (String × Node) → String → List String
  | 0, _, x => [x]
  | n + 1, ns, x =>
    x ::
      (match lookupA ns x with
      | some nd =>
        match nd.parentId with
        | some q => ancChain n ns q
        | none => []
      | none => [])

/-- Modelled from the spec: bottom-up recursive removal of a subtree
(§4.1 RemoveTree) — children are removed before their parent.  The fuel
argument bounds the recursion; every step is a guarded no-op-on-failure
primitive. -/
def removeListRec : Nat → List String → Store → Store
  | 0, _, s => s
  | _ + 1, [], s => s
  | n + 1, x :: r, s =>
    removeListRec n r (removeLeaf (removeListRec n (kidsOfL s.kids x) s) x)

/-- Modelled from the spec: RemoveTree — recursively removes all
descendants bottom-up before removing the node itself (§4.1). -/
def removeTree (s : Store) (x : String) : Store :=
  removeListRec (s.nodes.length + 1) [x] s

/-- Modelled from the spec: `apply(change)` of the Indexed Tree Store
(§4.1).  All variants are total; structurally impossible or stale requests
leave the store untouched (all-or-nothing, idempotent against duplicate
notifications). -/
def applyEvent (s : Store) : Event → Store
  | Event.insert x title kind p i => placeNode s x ⟨none, 0, title, kind⟩ p i
  | Event.update x t u => patchNode s x t u
  | Event.move x p i =>
    match lookupA s.nodes x with
    | none => s
    | some nd =>
      if memB (ancChain (s.nodes.length + 1) s.nodes p) x then s
      else placeNode s x nd p i
  | Event.remove x => removeLeaf s x
  | Event.removeTree x => removeTree s x

/-- Apply a sequence of events in delivery order (§5 ordering
guarantee). -/
def applyEvents (s : Store) (evs : List Event) : Store :=
  evs.foldl applyEvent s

/-- Modelled from the spec: the initial bulk load (§4.1 `load`) — the
whole tree is imported into empty indexes by replaying the external
store's creation events. -/
def load (evs : List Event) : Store :=
  applyEvents emptyStore evs

/-- Structural consistency of the by-id and by-parent indexes: distinct
keys, no dangling child references, every by-id node occurring exactly
once across all children lists, and every indexed parent present (or the
implicit root). -/
def StructInv (ns : List (String × Node)) (ks : List (String × List String)) : Prop :=
  nodupKeys ns ∧ nodupKeys ks ∧
  (∀ pl ∈ ks, ∀ c ∈ pl.2, lookupA ns c ≠ none) ∧
  (∀ kv ∈ ns, occCount ks kv.1 = 1) ∧
  (∀ pl ∈ ks, pl.1 = ROOT ∨ lookupA ns pl.1 ≠ none)

/-- Positional consistency: every child recorded at position `i` of a
parent's children list is a by-id node whose `parentId` is that parent and
whose `index` field equals `i` (hence sibling indices are the contiguous
0-based sequence). -/
def IndexInv (ns : List (String × Node)) (ks : List (String × List String)) : Prop :=
  ∀ pl ∈ ks, ∀ i : Nat, ∀ c : String, nthS pl.2 i = some c →
    ∃ n, lookupA ns c = some n ∧ n.parentId = some pl.1 ∧ n.index = i

/-- The store's cross-index consistency invariant (§3 Invariants): the
by-id map and the by-parent index are mutually consistent, every node
appears exactly once in exactly one parent's children sequence at the
position equal to its `index` field, and sibling indices are contiguous
from 0. -/
def Inv (s : Store) : Prop :=
  StructInv s.nodes s.kids ∧ IndexInv s.nodes s.kids

/-- Ids of all folders whose title equals the designated stash-root name,
in by-id order (§4.2 candidate scan). -/
def candIds (name : String) : List (String × Node) → List String
  | [] => []
  | kv :: t =>
    if kv.2.kind = NodeKind.folder ∧ kv.2.title = name then kv.1 :: candIds name t
    else candIds name t

/-- Depth of a node: length of the parent chain up to the tree root
(fuel-bounded chase of `parentId`). -/
def depthA : Nat → List (String × Node) → String → Nat
  | 0, _, _ => 0
  | n + 1, ns, x =>
    match lookupA ns x with
    | some nd =>
      match nd.parentId with
      | some q => depthA n ns q + 1
      | none => 0
    | none => 0

/-- Depth of a node in a store (shortest path from the tree root). -/
def depth (s : Store) (x : String) : Nat :=
  depthA (s.nodes.length + 1) s.nodes x

/-- Modelled from the spec: deterministic selection of the topmost
candidate — the one with minimal depth, earlier candidates preferred on
ties (§4.2). -/
def pickBest (s : Store) : List String → Option String
  | [] => none
  | c :: t =>
    match pickBest s t with
    | none => some c
    | some b => if depth s c ≤ depth s b then some c else some b

/-- Modelled from the spec: the resolved stash root (§4.2) — undefined
when no folder carries the designated name, otherwise the topmost
matching folder. -/
def stashRoot (s : Store) (name : String) : Option String :=
  pickBest s (candIds name s.nodes)

/-- Modelled from the spec: the ambiguous-roots warning flag, set exactly
while more than one candidate exists (§4.2). -/
def stashRootWarning (s : Store) (name : String) : Bool :=
  decide (2 ≤ (candIds name s.nodes).length)

/-- Modelled from the spec: the self-deletion phase of the
`ensureStashRoot()` race (§4.2) — after both create echoes have been
applied (store `s2`), the resolver designates one of the two created
folders; the other one (the later-arriving duplicate) removes itself, and
both pending callers resolve to the then-designated root. -/
def raceFinish (s2 : Store) (name f1 f2 : String) :
    Store × Option String × Option String :=
  match stashRoot s2 name with
  | none => (s2, none, none)
  | some r =>
    (applyEvent s2 (Event.removeTree (if r = f1 then f2 else f1)),
      stashRoot (applyEvent s2 (Event.removeTree (if r = f1 then f2 else f1))) name,
      stashRoot (applyEvent s2 (Event.removeTree (if r = f1 then f2 else f1))) name)

/-- Modelled from the spec: the two-caller `ensureStashRoot()` race
(§4.2) of `src/model/bookmarks.ts` (not in src/).  Both concurrent calls
observe "no root exists" and issue create commands for folders `f1` and
`f2` at the tree's top level; once both echoes are applied, the resolver
designates one of them, the later-arriving duplicate self-deletes, and
both pending callers resolve to the surviving root.  Returns the final
store and the two resolved values. -/
def raceEnsureStashRoot (s : Store) (name f1 f2 : String) :
    Store × Option String × Option String :=
  raceFinish
    (applyEvent (applyEvent s (Event.insert f1 name NodeKind.folder ROOT 0))
      (Event.insert f2 name NodeKind.folder ROOT 0))
    name f1 f2

/-- Error kinds of the mutator's `move` (§7 taxonomy): a structural cycle
violation, or operating on an id that does not exist. -/
inductive MoveErr where
  | cycle
  | notFound
deriving DecidableEq

/-- Modelled from the spec: the Tree Mutator's `move(id, newParentId,
newIndex)` (§4.3) — rejects with a cycle error if the destination is the
moved node itself or one of its descendants (the destination's ancestor
chain contains the moved node, exactly the `pathTo`-based check of
`Model.putItemsInFolder`, src/model/index.ts lines 514-524); errors never
mutate the store. -/
def moveM (s : Store) (x p : String) (i : Nat) : Except MoveErr Store :=
  match lookupA s.nodes x with
  | none => Except.error MoveErr.notFound
  | some nd =>
    if memB (ancChain (s.nodes.length + 1) s.nodes p) x then Except.error MoveErr.cycle
    else Except.ok (placeNode s x nd p i)

/-- Observable outcome of running an async function through
`Model.attempt` (src/model/index.ts lines 179-187): the returned or
re-raised result, the errors passed to `logError`, and whether the
reconciling `Model.reload` was triggered. -/
structure AttemptOutcome (R : Type) where
  result : Except String R
  loggedErrors : List String
  reloaded : Bool

/-- Embedding of `Model.attempt` (src/model/index.ts lines 179-187): run
`fn`; on success return its result untouched; on failure log the error,
trigger the reconciling reload, and re-raise the same error. -/
def attempt {R : Type} (fn : Except String R) : AttemptOutcome R :=
  match fn with
  | Except.ok r => ⟨Except.ok r, [], false⟩
  | Except.error e => ⟨Except.error e, [e], true⟩

/-- A new stash item carrying no id: `NewTab` or `NewFolder`
(src/model/index.ts lines 83-84). -/
inductive NewItem where
  | tab (title : Option String) (url : String)
  | folder (title : String) (children : List NewItem)

/-- A stash item handed to `Model.copying`: a tab, a bookmark node, a
folder node (with its materialized children), a separator node, or an
item that is already new (src/model/index.ts `StashItem`). -/
inductive SItem where
  | tab (id : Nat) (title : Option String) (url : String)
  | bookmark (id : String) (title : String) (url : String)
  | folder (id : String) (title : String) (children : List SItem)
  | separator (id : String)
  | fresh (item : NewItem)

mutual

/-- Embedding of the callback of `filterMap` inside `Model.copying`
(src/model/index.ts lines 1030-1049): new items pass through unchanged,
tabs and bookmarks are reduced to title/url records, folders are copied
recursively, separators yield nothing. -/
def copyOne : SItem → Option NewItem
  | SItem.fresh n => some n
  | SItem.tab _ t u => some (NewItem.tab t u)
  | SItem.bookmark _ t u => some (NewItem.tab (some t) u)
  | SItem.folder _ t cs => some (NewItem.folder t (copyList cs))
  | SItem.separator _ => none

/-- Embedding of `Model.copying` (src/model/index.ts lines 1030-1049):
`filterMap` of `copyOne` over the items. -/
def copyList : List SItem → List NewItem
  | [] => []
  | i :: r =>
    match copyOne i with
    | some n => n :: copyList r
    | none => copyList r

end

/-- Is a stash item a separator node? -/
def isSeparator : SItem → Bool
  | SItem.separator _ => true
  | _ => false

/-- Collaborators consulted by `Model.isURLStashable`: the
browser-settings model's new-tab/homepage classification, URL parseability
(`new URL(...)` not throwing), and the extension's own base URL
(`browser.runtime.getURL("")`). -/
structure UrlEnv where
  isNewTabURL : String → Bool
  isValidURL : String → Bool
  extensionBase : String

/-- Embedding of `Model.isURLStashable` (src/model/index.ts lines
205-221): absent and empty URLs, new-tab/homepage URLs, unparseable URLs
and the extension's own pages are not stashable; everything else is.  The
function is total (the source catches the URL-parse exception), so it
never throws. -/
def isURLStashable (env : UrlEnv) (url : Option String) : Bool :=
  match url with
  | none => false
  | some u =>
    if u = "" then false
    else if env.isNewTabURL u then false
    else if !(env.isValidURL u) then false
    else !(u.startsWith env.extensionBase)

/-- A small concrete tree used as a test vector: folder `p` under the
implicit root with four bookmarks `a b c d` (the shape of the
"reorders bookmarks (forward)" test of src/model/bookmarks.test.ts). -/
def sampleTree : Store :=
  load
    [Event.insert "p" "P" NodeKind.folder ROOT 0,
     Event.insert "a" "A" (NodeKind.bookmark "/a") "p" 0,
     Event.insert "b" "B" (NodeKind.bookmark "/b") "p" 1,
     Event.insert "c" "C" (NodeKind.bookmark "/c") "p" 2,
     Event.insert "d" "D" (NodeKind.bookmark "/d") "p" 3]

/-- `sampleTree` after moving `a` from index 0 to index 3 within the same
parent. -/
def sampleTreeMoved : Store :=
  applyEvent sampleTree (Event.move "a" "p" 3)

/-- A concrete tree with two stash-root candidates at different depths:
`top` directly under the implicit root, `deep` inside folder `f`. -/
def rootedTree : Store :=
  load
    [Event.insert "top" "Tab Stash" NodeKind.folder ROOT 0,
     Event.insert "f" "Other" NodeKind.folder ROOT 1,
     Event.insert "deep" "Tab Stash" NodeKind.folder "f" 0]

/-! Helper lemmas about the association-list primitives. -/

theorem lookupA_eq_none {α : Type} (l : List (String × α)) (k : String) :
    lookupA l k = none ↔ ∀ kv ∈ l, kv.1 ≠ k := by
  induction l with
  | nil => simp [lookupA]
  | cons hd t ih =>
    obtain ⟨a, v⟩ := hd
    by_cases hak : a = k <;> simp [lookupA, hak, ih]

theorem lookupA_some_mem {α : Type} {l : List (String × α)} {k : String} {v : α}
    (h : lookupA l k = some v) : (k, v) ∈ l := by
  induction l with
  | nil => simp [lookupA] at h
  | cons hd t ih =>
    obtain ⟨a, w⟩ := hd
    by_cases hak : a = k
    · subst hak
      simp [lookupA] at h
      subst h
      exact List.mem_cons_self _ _
    · simp [lookupA, hak] at h
      exact List.mem_cons_of_mem _ (ih h)

theorem lookupA_eraseA_self {α : Type} (l : List (String × α)) (k : String) :
    lookupA (eraseA l k) k = none := by
  induction l with
  | nil => simp [eraseA, lookupA]
  | cons hd t ih =>
    obtain ⟨a, v⟩ := hd
    by_cases hak : a = k <;> simp [eraseA, lookupA, hak, ih]

theorem lookupA_eraseA_ne {α : Type} (l : List (String × α)) {k x : String}
    (h : k ≠ x) : lookupA (eraseA l k) x = lookupA l x := by
  induction l with
  | nil => simp [eraseA]
  | cons hd t ih =>
    obtain ⟨a, v⟩ := hd
    by_cases hak : a = k
    · subst hak
      simp [eraseA, lookupA, h, ih]
    · by_cases hax : a = x
      · subst hax
        simp [eraseA, lookupA, hak]
      · simp [eraseA, lookupA, hak, hax, ih]

theorem mem_eraseA {α : Type} {l : List (String × α)} {k : String} {kv : String × α}
    (h : kv ∈ eraseA l k) : kv ∈ l ∧ kv.1 ≠ k := by
  induction l with
  | nil => simp [eraseA] at h
  | cons hd t ih =>
    obtain ⟨a, v⟩ := hd
    by_cases hak : a = k
    · simp [eraseA, hak] at h
      have := ih h
      exact ⟨List.mem_cons_of_mem _ this.1, this.2⟩
    · simp [eraseA, hak] at h
      rcases h with h | h
      · subst h
        exact ⟨List.mem_cons_self _ _, hak⟩
      · have := ih h
        exact ⟨List.mem_cons_of_mem _ this.1, this.2⟩

theorem eraseA_of_none {α : Type} {l : List (String × α)} {k : String}
    (h : lookupA l k = none) : eraseA l k = l := by
  induction l with
  | nil => simp [eraseA]
  | cons hd t ih =>
    obtain ⟨a, v⟩ := hd
    by_cases hak : a = k
    · simp [lookupA, hak] at h
    · simp [lookupA, hak] at h
      simp [eraseA, hak, ih h]

theorem nodupKeys_eraseA {α : Type} {l : List (String × α)} (h : nodupKeys l)
    (k : String) : nodupKeys (eraseA l k) := by
  induction l with
  | nil => simpa [eraseA] using h
  | cons hd t ih =>
    obtain ⟨a, v⟩ := hd
    obtain ⟨h1, h2⟩ := h
    by_cases hak : a = k
    · simp only [eraseA, if_pos hak]
      exact ih h2
    · simp only [eraseA, if_neg hak]
      refine ⟨?_, ih h2⟩
      by_cases hka : k = a
      · exact absurd hka.symm hak
      · rw [lookupA_eraseA_ne _ hka]
        exact h1

theorem nodupKeys_upsertA {α : Type} {l : List (String × α)} (h : nodupKeys l)
    (k : String) (v : α) : nodupKeys (upsertA l k v) :=
  ⟨lookupA_eraseA_self l k, nodupKeys_eraseA h k⟩

theorem lookupA_upsertA_self {α : Type} (l : List (String × α)) (k : String) (v : α) :
    lookupA (upsertA l k v) k = some v := by
  simp [upsertA, lookupA]

theorem lookupA_upsertA_ne {α : Type} (l : List (String × α)) {k x : String}
    (h : k ≠ x) (v : α) : lookupA (upsertA l k v) x = lookupA l x := by
  simp [upsertA, lookupA, h]
  exact lookupA_eraseA_ne l h

theorem lookupA_mapValues {α : Type} (f : String → α → α) (l : List (String × α))
    (k : String) : lookupA (mapValues f l) k = (lookupA l k).map (f k) := by
  induction l with
  | nil => simp [mapValues, lookupA]
  | cons hd t ih =>
    obtain ⟨a, v⟩ := hd
    by_cases hak : a = k
    · subst hak
      simp [mapValues, lookupA]
    · simp [mapValues, lookupA, hak, ih]

theorem mem_mapValues {α : Type} {f : String → α → α} {l : List (String × α)}
    {kv : String × α} (h : kv ∈ mapValues f l) :
    ∃ v, (kv.1, v) ∈ l ∧ kv.2 = f kv.1 v := by
  induction l with
  | nil => simp [mapValues] at h
  | cons hd t ih =>
    obtain ⟨a, v⟩ := hd
    simp [mapValues] at h
    rcases h with h | h
    · subst h
      exact ⟨v, List.mem_cons_self _ _, rfl⟩
    · obtain ⟨w, hw1, hw2⟩ := ih h
      exact ⟨w, List.mem_cons_of_mem _ hw1, hw2⟩

theorem nodupKeys_mapValues {α : Type} {f : String → α → α} {l : List (String × α)}
    (h : nodupKeys l) : nodupKeys (mapValues f l) := by
  induction l with
  | nil => simpa [mapValues] using h
  | cons hd t ih =>
    obtain ⟨a, v⟩ := hd
    obtain ⟨h1, h2⟩ := h
    refine ⟨?_, ih h2⟩
    rw [lookupA_mapValues, h1]
    rfl

/-! Helper lemmas about counting and positions. -/

theorem countS_removeAll_self (l : List String) (x : String) :
    countS (removeAll l x) x = 0 := by
  induction l with
  | nil => simp [removeAll, countS]
  | cons h t ih =>
    by_cases hx : h = x <;> simp [removeAll, countS, hx, ih]

theorem countS_removeAll_ne (l : List String) {x y : String} (h : y ≠ x) :
    countS (removeAll l x) y = countS l y := by
  induction l with
  | nil => simp [removeAll]
  | cons a t ih =>
    by_cases hax : a = x
    · subst hax
      have : a ≠ y := fun he => h he.symm
      simp [removeAll, countS, this, ih]
    · simp [removeAll, countS, hax, ih]

theorem mem_removeAll {l : List String} {x c : String}
    (h : c ∈ removeAll l x) : c ∈ l ∧ c ≠ x := by
  induction l with
  | nil => simp [removeAll] at h
  | cons a t ih =>
    by_cases hax : a = x
    · simp [removeAll, hax] at h
      have := ih h
      exact ⟨List.mem_cons_of_mem _ this.1, this.2⟩
    · simp [removeAll, hax] at h
      rcases h with h | h
      · subst h
        exact ⟨List.mem_cons_self _ _, hax⟩
      · have := ih h
        exact ⟨List.mem_cons_of_mem _ this.1, this.2⟩

theorem countS_insertAt (i : Nat) (a : String) (l : List String) (x : String) :
    countS (insertAt i a l) x = (if a = x then 1 else 0) + countS l x := by
  induction l generalizing i with
  | nil =>
    cases i <;> simp [insertAt, countS]
  | cons h t ih =>
    cases i with
    | zero => simp [insertAt, countS]
    | succ n =>
      simp [insertAt, countS, ih n]
      omega

theorem mem_insertAt {i : Nat} {a c : String} {l : List String}
    (h : c ∈ insertAt i a l) : c = a ∨ c ∈ l := by
  induction l generalizing i with
  | nil =>
    cases i <;> simpa [insertAt] using h
  | cons b t ih =>
    cases i with
    | zero =>
      simp [insertAt] at h
      rcases h with h | h | h
      · exact Or.inl h
      · exact Or.inr (by simp [h])
      · exact Or.inr (List.mem_cons_of_mem _ h)
    | succ n =>
      simp [insertAt] at h
      rcases h with h | h
      · exact Or.inr (by simp [h])
      · rcases ih h with h | h
        · exact Or.inl h
        · exact Or.inr (List.mem_cons_of_mem _ h)

theorem countS_eq_zero {l : List String} {x : String} :
    countS l x = 0 ↔ x ∉ l := by
  induction l with
  | nil => simp [countS]
  | cons a t ih =>
    by_cases hax : a = x
    · subst hax
      simp [countS]
    · have hxa : ¬ x = a := fun he => hax he.symm
      simp [countS, hax, ih, hxa]

theorem occCount_detachK_self (ks : List (String × List String)) (x : String) :
    occCount (detachK ks x) x = 0 := by
  induction ks with
  | nil => simp [detachK, mapValues, occCount]
  | cons hd t ih =>
    obtain ⟨p, l⟩ := hd
    simpa [detachK, mapValues, occCount, countS_removeAll_self] using ih

theorem occCount_detachK_ne (ks : List (String × List String)) {x y : String}
    (h : y ≠ x) : occCount (detachK ks x) y = occCount ks y := by
  induction ks with
  | nil => simp [detachK, mapValues]
  | cons hd t ih =>
    obtain ⟨p, l⟩ := hd
    simpa [detachK, mapValues, occCount, countS_removeAll_ne _ h] using ih

theorem occCount_eraseA_le (ks : List (String × List String)) (p y : String) :
    occCount (eraseA ks p) y ≤ occCount ks y := by
  induction ks with
  | nil => simp [eraseA]
  | cons hd t ih =>
    obtain ⟨q, l⟩ := hd
    by_cases hqp : q = p
    · simp only [eraseA, if_pos hqp, occCount]
      omega
    · simp only [eraseA, if_neg hqp, occCount]
      omega

theorem occCount_split {ks : List (String × List String)} (h : nodupKeys ks)
    (p y : String) :
    occCount ks y = countS (kidsOfL ks p) y + occCount (eraseA ks p) y := by
  induction ks with
  | nil => simp [occCount, kidsOfL, lookupA, eraseA, countS]
  | cons hd t ih =>
    obtain ⟨q, l⟩ := hd
    obtain ⟨h1, h2⟩ := h
    by_cases hqp : q = p
    · subst hqp
      simp [occCount, kidsOfL, lookupA, eraseA, eraseA_of_none h1]
    · simp only [eraseA, if_neg hqp, occCount, kidsOfL, lookupA, if_neg hqp]
      have := ih h2
      simp only [kidsOfL] at this
      omega

theorem occCount_upsertA (ks : List (String × List String)) (p : String)
    (L : List String) (y : String) :
    occCount (upsertA ks p L) y = countS L y + occCount (eraseA ks p) y := by
  simp [upsertA, occCount]

theorem occCount_eraseA_of_nil {ks : List (String × List String)}
    (h : nodupKeys ks) {x : String} (hx : kidsOfL ks x = []) (y : String) :
    occCount (eraseA ks x) y = occCount ks y := by
  have := occCount_split h x y
  rw [hx] at this
  simp [countS] at this
  omega

theorem countS_le_occCount {ks : List (String × List String)} {p : String}
    {l : List String} (h : (p, l) ∈ ks) (c : String) :
    countS l c ≤ occCount ks c := by
  induction ks with
  | nil => simp at h
  | cons hd t ih =>
    rcases List.mem_cons.mp h with he | ht
    · subst he
      simp only [occCount]
      omega
    · obtain ⟨q, m⟩ := hd
      simp only [occCount]
      have := ih ht
      omega

/-! Placement lemmas: the unique occurrence of an id among the children
lists is found by `findPlacement`. -/

theorem mem_of_nthS {l : List String} {i : Nat} {c : String}
    (h : nthS l i = some c) : c ∈ l := by
  induction l generalizing i with
  | nil => simp [nthS] at h
  | cons a t ih =>
    cases i with
    | zero =>
      simp [nthS] at h
      simp [h]
    | succ n =>
      simp only [nthS] at h
      exact List.mem_cons_of_mem _ (ih h)

theorem countS_pos_of_mem {l : List String} {c : String} (h : c ∈ l) :
    1 ≤ countS l c := by
  induction l with
  | nil => simp at h
  | cons a t ih =>
    rcases List.mem_cons.mp h with he | ht
    · simp [countS, he.symm]
    · simp only [countS]
      have := ih ht
      omega

theorem posIn_of_count_one {l : List String} {c : String} :
    countS l c = 1 → ∀ {i : Nat}, nthS l i = some c → posIn l c = some i := by
  induction l with
  | nil =>
    intro h i hi
    simp [nthS] at hi
  | cons a t ih =>
    intro h i hi
    by_cases hac : a = c
    · subst hac
      simp [countS] at h
      have ht : countS t a = 0 := by omega
      cases i with
      | zero => simp [posIn]
      | succ n =>
        exfalso
        simp only [nthS] at hi
        exact (countS_eq_zero.mp ht) (mem_of_nthS hi)
    · simp only [countS, if_neg hac] at h
      cases i with
      | zero =>
        simp only [nthS] at hi
        exact absurd (Option.some.inj hi) hac
      | succ n =>
        simp only [nthS] at hi
        simp only [posIn, if_neg hac]
        rw [ih (by omega) hi]
        rfl

theorem posIn_eq_none {l : List String} {c : String} (h : countS l c = 0) :
    posIn l c = none := by
  induction l with
  | nil => rfl
  | cons a t ih =>
    by_cases hac : a = c
    · simp [countS, hac] at h
    · simp only [countS, if_neg hac] at h
      simp only [posIn, if_neg hac]
      rw [ih (by omega)]
      rfl

theorem findPlacement_unique {ks : List (String × List String)} {c : String}
    (hocc : occCount ks c = 1) :
    ∀ {p : String} {l : List String}, (p, l) ∈ ks →
      ∀ {i : Nat}, nthS l i = some c → findPlacement ks c = some (p, i) := by
  induction ks with
  | nil =>
    intro p l hmem
    simp at hmem
  | cons hd t ih =>
    obtain ⟨q, m⟩ := hd
    intro p l hmem i hi
    simp only [occCount] at hocc
    rcases List.mem_cons.mp hmem with he | ht
    · obtain ⟨hq, hm⟩ := Prod.mk.inj he
      subst hq
      subst hm
      have hcl : 1 ≤ countS l c := countS_pos_of_mem (mem_of_nthS hi)
      have : countS l c = 1 := by omega
      simp only [findPlacement, posIn_of_count_one this hi]
    · have h1 : countS l c ≤ occCount t c := countS_le_occCount ht c
      have h2 : 1 ≤ countS l c := countS_pos_of_mem (mem_of_nthS hi)
      have hm0 : countS m c = 0 := by omega
      have hocc2 : occCount t c = 1 := by omega
      simp only [findPlacement, posIn_eq_none hm0]
      exact ih hocc2 ht hi

/-! Derived helpers used by the invariant preservation proofs. -/

theorem lookupA_upsertA_ne_none {α : Type} {l : List (String × α)} {c : String}
    (h : lookupA l c ≠ none) (k : String) (v : α) :
    lookupA (upsertA l k v) c ≠ none := by
  by_cases hkc : k = c
  · subst hkc
    rw [lookupA_upsertA_self]
    exact Option.some_ne_none v
  · rw [lookupA_upsertA_ne _ hkc]
    exact h

theorem lookupA_eraseA_ne_none {α : Type} {l : List (String × α)} {c k : String}
    (h : lookupA l c ≠ none) (hkc : k ≠ c) :
    lookupA (eraseA l k) c ≠ none := by
  rw [lookupA_eraseA_ne _ hkc]
  exact h

theorem lookupA_detachK (ks : List (String × List String)) (x p : String) :
    lookupA (detachK ks x) p = (lookupA ks p).map (fun l => removeAll l x) :=
  lookupA_mapValues _ ks p

theorem kidsOfL_detachK (ks : List (String × List String)) (x p : String) :
    kidsOfL (detachK ks x) p = removeAll (kidsOfL ks p) x := by
  unfold kidsOfL
  rw [lookupA_detachK]
  cases lookupA ks p with
  | none => rfl
  | some l => rfl

theorem mem_kidsOfL {ks : List (String × List String)} {p c : String}
    (h : c ∈ kidsOfL ks p) : ∃ l, (p, l) ∈ ks ∧ c ∈ l := by
  unfold kidsOfL at h
  cases hl : lookupA ks p with
  | none => rw [hl] at h; simp at h
  | some l =>
    rw [hl] at h
    exact ⟨l, lookupA_some_mem hl, h⟩

theorem nodupKeys_detachK {ks : List (String × List String)}
    (h : nodupKeys ks) (x : String) : nodupKeys (detachK ks x) :=
  nodupKeys_mapValues h

/-! Preservation of the structural invariant by the store primitives, and
restoration of the positional invariant by `reindex`. -/

theorem structInv_reindex {ns : List (String × Node)}
    {ks : List (String × List String)} (h : StructInv ns ks) :
    StructInv (reindex ⟨ns, ks, bu⟩).nodes ks := by
  obtain ⟨h1, h2, h3, h4, h5⟩ := h
  refine ⟨nodupKeys_mapValues h1, h2, ?_, ?_, ?_⟩
  · intro pl hpl c hc
    rw [show (reindex ⟨ns, ks, bu⟩).nodes = mapValues _ ns from rfl, lookupA_mapValues]
    have := h3 pl hpl c hc
    cases hl : lookupA ns c with
    | none => exact absurd hl this
    | some n => exact Option.some_ne_none _
  · intro kv hkv
    obtain ⟨v, hv, _⟩ := mem_mapValues hkv
    exact h4 (kv.1, v) hv
  · intro pl hpl
    rcases h5 pl hpl with hr | hn
    · exact Or.inl hr
    · refine Or.inr ?_
      rw [show (reindex ⟨ns, ks, bu⟩).nodes = mapValues _ ns from rfl, lookupA_mapValues]
      cases hl : lookupA ns pl.1 with
      | none => exact absurd hl hn
      | some n => exact Option.some_ne_none _

theorem indexInv_reindex {ns : List (String × Node)}
    {ks : List (String × List String)} (h : StructInv ns ks) :
    IndexInv (reindex ⟨ns, ks, bu⟩).nodes ks := by
  obtain ⟨h1, h2, h3, h4, h5⟩ := h
  intro pl hpl i c hc
  have hcmem : c ∈ pl.2 := mem_of_nthS hc
  have hlk := h3 pl hpl c hcmem
  cases hl : lookupA ns c with
  | none => exact absurd hl hlk
  | some n0 =>
    have hocc : occCount ks c = 1 := h4 _ (lookupA_some_mem hl)
    have hpair : (pl.1, pl.2) ∈ ks := by
      rw [Prod.mk.eta]
      exact hpl
    have hfp := findPlacement_unique hocc hpair hc
    refine ⟨{ n0 with parentId := some pl.1, index := i }, ?_, rfl, rfl⟩
    rw [show (reindex ⟨ns, ks, bu⟩).nodes = mapValues
      (fun k n =>
        match findPlacement ks k with
        | some pi => { n with parentId := some pi.1, index := pi.2 }
        | none => n) ns from rfl, lookupA_mapValues, hl]
    simp [hfp]

theorem inv_reindex {ns : List (String × Node)} {ks : List (String × List String)}
    (bu : List (String × List String)) (h : StructInv ns ks) :
    Inv (reindex ⟨ns, ks, bu⟩) :=
  ⟨structInv_reindex h, indexInv_reindex h⟩

theorem occCount_placeKids_self (ks : List (String × List String)) (x p : String)
    (i : Nat) : occCount (placeKids ks x p i) x = 1 := by
  unfold placeKids
  rw [occCount_upsertA, countS_insertAt]
  have h1 : countS (kidsOfL (detachK ks x) p) x = 0 := by
    rw [kidsOfL_detachK]
    exact countS_removeAll_self _ x
  have h2 : occCount (eraseA (detachK ks x) p) x = 0 := by
    have := occCount_eraseA_le (detachK ks x) p x
    have := occCount_detachK_self ks x
    omega
  simp [h1, h2]

theorem occCount_placeKids_ne {ks : List (String × List String)} (h : nodupKeys ks)
    {x y : String} (hxy : y ≠ x) (p : String) (i : Nat) :
    occCount (placeKids ks x p i) y = occCount ks y := by
  unfold placeKids
  rw [occCount_upsertA, countS_insertAt, if_neg (fun he => hxy he.symm)]
  have hd : nodupKeys (detachK ks x) := nodupKeys_detachK h x
  have hsplit := occCount_split hd p y
  have hocc : occCount (detachK ks x) y = occCount ks y := occCount_detachK_ne ks hxy
  omega

theorem structInv_place {ns : List (String × Node)} {ks : List (String × List String)}
    (h : StructInv ns ks) (x : String) (nd : Node) {p : String}
    (hp : p = ROOT ∨ lookupA ns p ≠ none) (i : Nat) :
    StructInv (upsertA ns x nd) (placeKids ks x p i) := by
  obtain ⟨h1, h2, h3, h4, h5⟩ := h
  have hd : nodupKeys (detachK ks x) := nodupKeys_detachK h2 x
  refine ⟨nodupKeys_upsertA h1 x nd, nodupKeys_upsertA hd p _, ?_, ?_, ?_⟩
  · -- no dangling child references
    intro pl hpl c hc
    have hcases : (pl.1 = p ∧ pl.2 = insertAt i x (kidsOfL (detachK ks x) p)) ∨
        pl ∈ detachK ks x := by
      rcases List.mem_cons.mp hpl with he | ht
      · left
        obtain ⟨e1, e2⟩ := Prod.mk.inj he
        exact ⟨e1, e2⟩
      · exact Or.inr (mem_eraseA ht).1
    rcases hcases with ⟨he1, he2⟩ | hmem
    · rw [he2] at hc
      rcases mem_insertAt hc with hcx | hcl
      · subst hcx
        rw [lookupA_upsertA_self]
        exact Option.some_ne_none _
      · rw [kidsOfL_detachK] at hcl
        obtain ⟨hcmem, hcx⟩ := mem_removeAll hcl
        obtain ⟨l0, hl0, hcl0⟩ := mem_kidsOfL hcmem
        exact lookupA_upsertA_ne_none (h3 (p, l0) hl0 c hcl0) x nd
    · obtain ⟨v, hv, hval⟩ := mem_mapValues hmem
      rw [hval] at hc
      obtain ⟨hcmem, hcx⟩ := mem_removeAll hc
      exact lookupA_upsertA_ne_none (h3 (pl.1, v) hv c hcmem) x nd
  · -- every by-id node occurs exactly once across the children lists
    intro kv hkv
    rcases List.mem_cons.mp hkv with he | ht
    · rw [he]
      exact occCount_placeKids_self ks x p i
    · obtain ⟨hmem, hne⟩ := mem_eraseA ht
      rw [occCount_placeKids_ne h2 hne p i]
      exact h4 _ hmem
  · -- every indexed parent exists (or is the implicit root)
    intro pl hpl
    rcases List.mem_cons.mp hpl with he | ht
    · obtain ⟨e1, _⟩ := Prod.mk.inj he
      rw [e1]
      rcases hp with hr | hn
      · exact Or.inl hr
      · exact Or.inr (lookupA_upsertA_ne_none hn x nd)
    · obtain ⟨hmem, _⟩ := mem_eraseA ht
      obtain ⟨v, hv, _⟩ := mem_mapValues hmem
      rcases h5 (pl.1, v) hv with hr | hn
      · exact Or.inl hr
      · exact Or.inr (lookupA_upsertA_ne_none hn x nd)

theorem structInv_removeLeaf {ns : List (String × Node)}
    {ks : List (String × List String)} (h : StructInv ns ks) {x : String}
    (hx : kidsOfL ks x = []) :
    StructInv (eraseA ns x) (detachK (eraseA ks x) x) := by
  obtain ⟨h1, h2, h3, h4, h5⟩ := h
  refine ⟨nodupKeys_eraseA h1 x, nodupKeys_detachK (nodupKeys_eraseA h2 x) x, ?_, ?_, ?_⟩
  · intro pl hpl c hc
    obtain ⟨v, hv, hval⟩ := mem_mapValues hpl
    rw [hval] at hc
    obtain ⟨hcmem, hcx⟩ := mem_removeAll hc
    obtain ⟨hvk, _⟩ := mem_eraseA hv
    exact lookupA_eraseA_ne_none (h3 (pl.1, v) hvk c hcmem) (fun he => hcx he.symm)
  · intro kv hkv
    obtain ⟨hmem, hne⟩ := mem_eraseA hkv
    rw [occCount_detachK_ne _ hne, occCount_eraseA_of_nil h2 hx]
    exact h4 _ hmem
  · intro pl hpl
    obtain ⟨v, hv, _⟩ := mem_mapValues hpl
    obtain ⟨hvk, hvne⟩ := mem_eraseA hv
    rcases h5 (pl.1, v) hvk with hr | hn
    · exact Or.inl hr
    · exact Or.inr (lookupA_eraseA_ne_none hn (fun he => hvne he.symm))

theorem structInv_patch {ns : List (String × Node)}
    {ks : List (String × List String)} (h : StructInv ns ks) {x : String}
    {nd : Node} (hx : lookupA ns x = some nd) (nd2 : Node) :
    StructInv (upsertA ns x nd2) ks := by
  obtain ⟨h1, h2, h3, h4, h5⟩ := h
  refine ⟨nodupKeys_upsertA h1 x nd2, h2, ?_, ?_, ?_⟩
  · intro pl hpl c hc
    exact lookupA_upsertA_ne_none (h3 pl hpl c hc) x nd2
  · intro kv hkv
    rcases List.mem_cons.mp hkv with he | ht
    · rw [he]
      exact h4 (x, nd) (lookupA_some_mem hx)
    · exact h4 _ (mem_eraseA ht).1
  · intro pl hpl
    rcases h5 pl hpl with hr | hn
    · exact Or.inl hr
    · exact Or.inr (lookupA_upsertA_ne_none hn x nd2)

/-! Invariant preservation by every `apply()` variant. -/

theorem inv_placeNode {s : Store} (h : Inv s) (x : String) (nd : Node)
    (p : String) (i : Nat) : Inv (placeNode s x nd p i) := by
  unfold placeNode
  by_cases hp : p = ROOT ∨ lookupA s.nodes p ≠ none
  · rw [if_pos hp]
    exact inv_reindex _ (structInv_place h.1 x nd hp i)
  · rw [if_neg hp]
    exact h

theorem inv_removeLeaf {s : Store} (h : Inv s) (x : String) :
    Inv (removeLeaf s x) := by
  unfold removeLeaf
  by_cases hg : lookupA s.nodes x ≠ none ∧ kidsOfL s.kids x = []
  · rw [if_pos hg]
    exact inv_reindex _ (structInv_removeLeaf h.1 hg.2)
  · rw [if_neg hg]
    exact h

theorem inv_patchNode {s : Store} (h : Inv s) (x : String)
    (t u : Option String) : Inv (patchNode s x t u) := by
  unfold patchNode
  split
  · exact h
  · next nd hl => exact inv_reindex _ (structInv_patch h.1 hl _)

theorem inv_removeListRec (n : Nat) :
    ∀ (l : List String) (s : Store), Inv s → Inv (removeListRec n l s) := by
  induction n with
  | zero =>
    intro l s h
    simpa [removeListRec] using h
  | succ n ih =>
    intro l s h
    cases l with
    | nil => simpa [removeListRec] using h
    | cons x r =>
      simp only [removeListRec]
      exact ih r _ (inv_removeLeaf (ih _ _ h) x)

theorem inv_removeTree {s : Store} (h : Inv s) (x : String) :
    Inv (removeTree s x) :=
  inv_removeListRec _ _ _ h

theorem inv_applyEvent {s : Store} (h : Inv s) (e : Event) :
    Inv (applyEvent s e) := by
  cases e with
  | insert x title kind p i => exact inv_placeNode h x _ p i
  | update x t u => exact inv_patchNode h x t u
  | move x p i =>
    simp only [applyEvent]
    split
    · exact h
    · next nd hl =>
      split
      · exact h
      · exact inv_placeNode h x nd p i
  | remove x => exact inv_removeLeaf h x
  | removeTree x => exact inv_removeTree h x

theorem inv_applyEvents {s : Store} (h : Inv s) (evs : List Event) :
    Inv (applyEvents s evs) := by
  induction evs generalizing s with
  | nil => exact h
  | cons e t ih => exact ih (inv_applyEvent h e)

theorem inv_emptyStore : Inv emptyStore := by
  refine ⟨⟨trivial, trivial, ?_, ?_, ?_⟩, ?_⟩ <;> intro pl hpl <;>
    simp [emptyStore] at hpl

/-- C1: after the initial bulk load and after every `apply()` operation,
the store's indexes are mutually consistent — every node present in the
by-id map appears exactly once in exactly one parent's children sequence,
at the position equal to that node's `index` field (`IndexInv` together
with the exactly-once counting of `StructInv`), and the `index` values of
each parent's children form a contiguous 0-based sequence with no gaps or
duplicates (each position `i` carries a node whose `index` is `i`). -/
theorem store_invariants_after_load_and_apply (loadEvents evs : List Event) :
    Inv (applyEvents (load loadEvents) evs) :=
  inv_applyEvents (inv_applyEvents inv_emptyStore loadEvents) evs

/-! Lemmas about removal and the url index. -/

theorem removeListRec_nil (n : Nat) (s : Store) : removeListRec n [] s = s := by
  cases n <;> rfl

theorem removeTree_of_no_children {s : Store} {x : String}
    (h : kidsOfL s.kids x = []) : removeTree s x = removeLeaf s x := by
  unfold removeTree
  simp only [removeListRec, h, removeListRec_nil]

theorem not_mem_removeAll_self (l : List String) (x : String) :
    x ∉ removeAll l x :=
  fun h => (mem_removeAll h).2 rfl

theorem kidsOfL_upsertA_self (ks : List (String × List String)) (k : String)
    (v : List String) : kidsOfL (upsertA ks k v) k = v := by
  unfold kidsOfL
  rw [lookupA_upsertA_self]
  rfl

theorem kidsOfL_upsertA_ne (ks : List (String × List String)) {k u : String}
    (h : k ≠ u) (v : List String) : kidsOfL (upsertA ks k v) u = kidsOfL ks u := by
  unfold kidsOfL
  rw [lookupA_upsertA_ne _ h]

/-- C4: redelivering a Remove or RemoveTree event for an id that is no
longer present in the store is a no-op — no index is mutated (and
`applyEvent` is total, so no error is raised). -/
theorem remove_redelivery_noop (s : Store) (x : String)
    (hn : lookupA s.nodes x = none) (hk : lookupA s.kids x = none) :
    applyEvent s (Event.remove x) = s ∧ applyEvent s (Event.removeTree x) = s := by
  have hguard : ¬ (lookupA s.nodes x ≠ none ∧ kidsOfL s.kids x = []) :=
    fun hc => hc.1 hn
  have hleaf : removeLeaf s x = s := by
    unfold removeLeaf
    rw [if_neg hguard]
  have hkids : kidsOfL s.kids x = [] := by
    unfold kidsOfL
    rw [hk]
    rfl
  refine ⟨hleaf, ?_⟩
  show removeTree s x = s
  rw [removeTree_of_no_children hkids, hleaf]

/-- Witness for C4 at a concrete store and id. -/
theorem remove_redelivery_noop_witness :
    applyEvent sampleTree (Event.remove "zz") = sampleTree ∧
    applyEvent sampleTree (Event.removeTree "zz") = sampleTree :=
  remove_redelivery_noop sampleTree "zz" (by decide) (by decide)

/-- C5: an Insert event whose node id already exists overwrites the
existing node in place — afterwards the id maps to a single node carrying
the new fields, no parent's children sequence contains a second entry for
that id (it occurs exactly once across all children lists), the by-url
index contains the node under its new URL, and every other URL's bucket
(in particular the old URL's) no longer contains it. -/
theorem duplicate_insert_overwrites (s : Store) (x : String) (oldN : Node)
    (newTitle newUrl p : String) (i : Nat)
    (hx : lookupA s.nodes x = some oldN)
    (hp : p = ROOT ∨ lookupA s.nodes p ≠ none) :
    (∃ n, lookupA (applyEvent s
        (Event.insert x newTitle (NodeKind.bookmark newUrl) p i)).nodes x = some n ∧
      n.title = newTitle ∧ n.kind = NodeKind.bookmark newUrl) ∧
    occCount (applyEvent s
      (Event.insert x newTitle (NodeKind.bookmark newUrl) p i)).kids x = 1 ∧
    x ∈ kidsOfL (applyEvent s
      (Event.insert x newTitle (NodeKind.bookmark newUrl) p i)).byUrl newUrl ∧
    (∀ u, u ≠ newUrl → x ∉ kidsOfL (applyEvent s
      (Event.insert x newTitle (NodeKind.bookmark newUrl) p i)).byUrl u) := by
  have happ : applyEvent s (Event.insert x newTitle (NodeKind.bookmark newUrl) p i) =
      reindex
        ⟨upsertA s.nodes x ⟨none, 0, newTitle, NodeKind.bookmark newUrl⟩,
          placeKids s.kids x p i,
          urlPlace s.byUrl x ⟨none, 0, newTitle, NodeKind.bookmark newUrl⟩⟩ := by
    show placeNode s x ⟨none, 0, newTitle, NodeKind.bookmark newUrl⟩ p i = _
    unfold placeNode
    rw [if_pos hp]
  rw [happ]
  refine ⟨?_, ?_, ?_, ?_⟩
  · -- the id maps to one node carrying the new fields
    rw [show (reindex ⟨upsertA s.nodes x ⟨none, 0, newTitle, NodeKind.bookmark newUrl⟩,
        placeKids s.kids x p i, _⟩).nodes = mapValues _ _ from rfl]
    rw [lookupA_mapValues, lookupA_upsertA_self]
    cases hfp : findPlacement (placeKids s.kids x p i) x with
    | none =>
      exact ⟨⟨none, 0, newTitle, NodeKind.bookmark newUrl⟩, by simp [hfp], rfl, rfl⟩
    | some pi =>
      exact ⟨⟨some pi.1, pi.2, newTitle, NodeKind.bookmark newUrl⟩, by simp [hfp], rfl, rfl⟩
  · -- exactly one occurrence across all children lists
    exact occCount_placeKids_self s.kids x p i
  · -- the new URL's bucket contains the node
    show x ∈ kidsOfL (urlPlace s.byUrl x ⟨none, 0, newTitle, NodeKind.bookmark newUrl⟩) newUrl
    unfold urlPlace
    rw [show Node.kind ⟨none, 0, newTitle, NodeKind.bookmark newUrl⟩ =
      NodeKind.bookmark newUrl from rfl]
    rw [kidsOfL_upsertA_self]
    exact List.mem_cons_self _ _
  · -- no other bucket contains the node
    intro u hu
    show x ∉ kidsOfL (urlPlace s.byUrl x ⟨none, 0, newTitle, NodeKind.bookmark newUrl⟩) u
    unfold urlPlace
    rw [show Node.kind ⟨none, 0, newTitle, NodeKind.bookmark newUrl⟩ =
      NodeKind.bookmark newUrl from rfl]
    rw [kidsOfL_upsertA_ne _ (fun he => hu he.symm), kidsOfL_detachK]
    exact not_mem_removeAll_self _ x

/-- Witness for C5: re-inserting bookmark `a` of the sample tree with new
title and URL. -/
theorem duplicate_insert_overwrites_witness :
    (∃ n, lookupA (applyEvent sampleTree
        (Event.insert "a" "NewA" (NodeKind.bookmark "/new") "p" 0)).nodes "a" = some n ∧
      n.title = "NewA" ∧ n.kind = NodeKind.bookmark "/new") ∧
    occCount (applyEvent sampleTree
      (Event.insert "a" "NewA" (NodeKind.bookmark "/new") "p" 0)).kids "a" = 1 ∧
    "a" ∈ kidsOfL (applyEvent sampleTree
      (Event.insert "a" "NewA" (NodeKind.bookmark "/new") "p" 0)).byUrl "/new" ∧
    (∀ u, u ≠ "/new" → "a" ∉ kidsOfL (applyEvent sampleTree
      (Event.insert "a" "NewA" (NodeKind.bookmark "/new") "p" 0)).byUrl u) :=
  duplicate_insert_overwrites sampleTree "a" ⟨some "p", 0, "A", NodeKind.bookmark "/a"⟩
    "NewA" "/new" "p" 0 (by decide) (by decide)

/-- C6: a move whose destination is the moved node itself or one of its
descendants (the destination's ancestor chain contains the moved node,
the check of `Model.putItemsInFolder`) fails with the distinct cycle
error, and the event-level apply leaves the store exactly as it was —
no index is mutated. -/
theorem move_into_descendant_rejected (s : Store) (x p : String) (i : Nat)
    (nd : Node) (hx : lookupA s.nodes x = some nd)
    (hcyc : memB (ancChain (s.nodes.length + 1) s.nodes p) x = true) :
    moveM s x p i = Except.error MoveErr.cycle ∧
    applyEvent s (Event.move x p i) = s := by
  constructor
  · unfold moveM
    rw [hx]
    simp [hcyc]
  · simp only [applyEvent]
    rw [hx]
    simp [hcyc]

/-- Witness for C6: moving folder `p` of the sample tree into its own
child `c`. -/
theorem move_into_descendant_rejected_witness :
    moveM sampleTree "p" "c" 0 = Except.error MoveErr.cycle ∧
    applyEvent sampleTree (Event.move "p" "c" 0) = sampleTree :=
  move_into_descendant_rejected sampleTree "p" "c" 0
    ⟨some ROOT, 0, "P", NodeKind.folder⟩ (by decide) (by decide)

/-- C7: moving a node forward within the same parent, from index 0 to
index 3 among 4 children, produces the stable reorder — each of the three
intermediate siblings has its `index` decremented by one (0, 1, 2) and the
moved node ends at index 3. -/
theorem forward_move_is_stable_reorder :
    kidsOfL sampleTree.kids "p" = ["a", "b", "c", "d"] ∧
    (lookupA sampleTree.nodes "a").map Node.index = some 0 ∧
    kidsOfL sampleTreeMoved.kids "p" = ["b", "c", "d", "a"] ∧
    (lookupA sampleTreeMoved.nodes "b").map Node.index = some 0 ∧
    (lookupA sampleTreeMoved.nodes "c").map Node.index = some 1 ∧
    (lookupA sampleTreeMoved.nodes "d").map Node.index = some 2 ∧
    (lookupA sampleTreeMoved.nodes "a").map Node.index = some 3 := by
  decide

/-- C8: running an async function through `Model.attempt`: on rejection
the error is logged, the reconciling reload is triggered, and the same
error is re-raised to the caller; on success the result is returned and no
reload happens. -/
theorem attempt_propagates_and_reloads {R : Type} (fn : Except String R) :
    (∀ e, fn = Except.error e →
      attempt fn = ⟨Except.error e, [e], true⟩) ∧
    (∀ r, fn = Except.ok r →
      attempt fn = ⟨Except.ok r, [], false⟩) := by
  constructor <;> intro v hv <;> subst hv <;> rfl

/-- Witness for C8 at a concrete failing function. -/
theorem attempt_propagates_and_reloads_witness :
    attempt (Except.error "boom" : Except String Nat) =
      ⟨Except.error "boom", ["boom"], true⟩ :=
  (attempt_propagates_and_reloads (Except.error "boom" : Except String Nat)).1
    "boom" rfl

/-- C9: `Model.copying` returns only new items (the return type carries no
id field): tabs and bookmarks are reduced to title/url records, folders
are recursively copied together with their children, items that are
already new pass through, separators are omitted entirely, and every
non-separator input yields exactly one output item. -/
theorem copying_produces_new_items :
    (∀ id t u, copyOne (SItem.tab id t u) = some (NewItem.tab t u)) ∧
    (∀ id t u, copyOne (SItem.bookmark id t u) = some (NewItem.tab (some t) u)) ∧
    (∀ id t cs, copyOne (SItem.folder id t cs) =
      some (NewItem.folder t (copyList cs))) ∧
    (∀ id, copyOne (SItem.separator id) = none) ∧
    (∀ n, copyOne (SItem.fresh n) = some n) ∧
    (∀ items, (copyList items).length =
      (items.filter (fun it => !(isSeparator it))).length) := by
  refine ⟨fun id t u => rfl, fun id t u => rfl, fun id t cs => rfl,
    fun id => rfl, fun n => rfl, ?_⟩
  intro items
  induction items with
  | nil => rfl
  | cons i r ih =>
    cases i with
    | tab id t u => simpa [copyList, copyOne, isSeparator, List.filter] using ih
    | bookmark id t u => simpa [copyList, copyOne, isSeparator, List.filter] using ih
    | folder id t cs => simpa [copyList, copyOne, isSeparator, List.filter] using ih
    | separator id => simpa [copyList, copyOne, isSeparator, List.filter] using ih
    | fresh n => simpa [copyList, copyOne, isSeparator, List.filter] using ih

/-- C10: `Model.isURLStashable` is false exactly on absent or empty URLs,
new-tab/homepage URLs, unparseable URLs, and the extension's own pages; it
is true on everything else (and, being a total function, it never
throws). -/
theorem isURLStashable_characterization (env : UrlEnv) (url : Option String) :
    isURLStashable env url = true ↔
      ∃ u, url = some u ∧ u ≠ "" ∧ env.isNewTabURL u = false ∧
        env.isValidURL u = true ∧ u.startsWith env.extensionBase = false := by
  cases url with
  | none => simp [isURLStashable]
  | some u =>
    by_cases h1 : u = ""
    · subst h1
      simp [isURLStashable]
    · by_cases h2 : env.isNewTabURL u
      · simp [isURLStashable, h1, h2]
      · by_cases h3 : env.isValidURL u
        · by_cases h4 : u.startsWith env.extensionBase
          · simp [isURLStashable, h1, h2, h3, h4]
          · simp [isURLStashable, h1, h2, h3, h4]
        · simp [isURLStashable, h1, h2, h3]

/-! Stash-root resolution lemmas. -/

theorem pickBest_spec (s : Store) :
    ∀ l : List String, l = [] ∨
      ∃ r, pickBest s l = some r ∧ r ∈ l ∧ ∀ c ∈ l, depth s r ≤ depth s c := by
  intro l
  induction l with
  | nil => exact Or.inl rfl
  | cons c t ih =>
    right
    rcases ih with hnil | ⟨r, hr, hrm, hrb⟩
    · subst hnil
      refine ⟨c, rfl, List.mem_cons_self _ _, ?_⟩
      intro c0 hc0
      rcases List.mem_cons.mp hc0 with he | ht
      · subst he
        exact Nat.le_refl _
      · simp at ht
    · by_cases hd : depth s c ≤ depth s r
      · refine ⟨c, ?_, List.mem_cons_self _ _, ?_⟩
        · simp only [pickBest, hr, if_pos hd]
        · intro c0 hc0
          rcases List.mem_cons.mp hc0 with he | ht
          · subst he
            exact Nat.le_refl _
          · exact Nat.le_trans hd (hrb c0 ht)
      · refine ⟨r, ?_, List.mem_cons_of_mem _ hrm, ?_⟩
        · simp only [pickBest, hr, if_neg hd]
        · intro c0 hc0
          rcases List.mem_cons.mp hc0 with he | ht
          · subst he
            exact Nat.le_of_not_le hd
          · exact hrb c0 ht

/-- C3: resolution of the designated stash root — no matching folder
resolves to `none`; a unique matching folder resolves to itself; whenever
candidates exist the resolved value is a candidate of minimal depth (the
topmost one); and the ambiguity warning is set exactly while at least two
candidates exist. -/
theorem stash_root_resolution (s : Store) (name : String) :
    (candIds name s.nodes = [] → stashRoot s name = none) ∧
    (∀ c, candIds name s.nodes = [c] → stashRoot s name = some c) ∧
    (∀ c0, c0 ∈ candIds name s.nodes →
      ∃ r, stashRoot s name = some r ∧ r ∈ candIds name s.nodes ∧
        ∀ c ∈ candIds name s.nodes, depth s r ≤ depth s c) ∧
    (stashRootWarning s name = true ↔ 2 ≤ (candIds name s.nodes).length) := by
  refine ⟨?_, ?_, ?_, ?_⟩
  · intro h
    unfold stashRoot
    rw [h]
    rfl
  · intro c h
    unfold stashRoot
    rw [h]
    rfl
  · intro c0 hc0
    unfold stashRoot
    rcases pickBest_spec s (candIds name s.nodes) with hnil | hspec
    · rw [hnil] at hc0
      simp at hc0
    · exact hspec
  · unfold stashRootWarning
    exact decide_eq_true_iff

/-- Witness for C3 at a concrete tree with two candidates at different
depths: the shallower one is resolved and the warning is set. -/
theorem stash_root_resolution_witness :
    (∃ r, stashRoot rootedTree "Tab Stash" = some r ∧
      r ∈ candIds "Tab Stash" rootedTree.nodes ∧
      ∀ c ∈ candIds "Tab Stash" rootedTree.nodes,
        depth rootedTree r ≤ depth rootedTree c) ∧
    stashRootWarning rootedTree "Tab Stash" = true :=
  ⟨(stash_root_resolution rootedTree "Tab Stash").2.2.1 "deep" (by decide),
    ((stash_root_resolution rootedTree "Tab Stash").2.2.2).mpr (by decide)⟩

/-! Candidate-set bookkeeping across store operations, and the
`ensureStashRoot` race. -/

theorem reindex_nodes (ns : List (String × Node)) (ks bu : List (String × List String)) :
    (reindex ⟨ns, ks, bu⟩).nodes = mapValues
      (fun k n =>
        match findPlacement ks k with
        | some pi => { n with parentId := some pi.1, index := pi.2 }
        | none => n) ns := rfl

theorem lookupA_reindex_none (ns : List (String × Node))
    (ks bu : List (String × List String)) (y : String) :
    lookupA (reindex ⟨ns, ks, bu⟩).nodes y = none ↔ lookupA ns y = none := by
  rw [reindex_nodes, lookupA_mapValues]
  cases lookupA ns y <;> simp

theorem candIds_mapValues {f : String → Node → Node}
    (hf : ∀ k n, (f k n).title = n.title ∧ (f k n).kind = n.kind)
    (name : String) (ns : List (String × Node)) :
    candIds name (mapValues f ns) = candIds name ns := by
  induction ns with
  | nil => rfl
  | cons kv t ih =>
    obtain ⟨k, v⟩ := kv
    obtain ⟨ht, hk⟩ := hf k v
    by_cases hc : v.kind = NodeKind.folder ∧ v.title = name
    · simp only [mapValues, candIds]
      rw [if_pos ⟨by rw [hk]; exact hc.1, by rw [ht]; exact hc.2⟩, if_pos hc, ih]
    · simp only [mapValues, candIds]
      rw [if_neg (fun hcf => hc ⟨by rw [← hk]; exact hcf.1, by rw [← ht]; exact hcf.2⟩),
        if_neg hc, ih]

theorem candIds_reindex (name : String) (ns : List (String × Node))
    (ks bu : List (String × List String)) :
    candIds name (reindex ⟨ns, ks, bu⟩).nodes = candIds name ns := by
  rw [reindex_nodes]
  refine candIds_mapValues ?_ name ns
  intro k n
  cases findPlacement ks k with
  | none => exact ⟨rfl, rfl⟩
  | some pi => exact ⟨rfl, rfl⟩

theorem candIds_eraseA (name : String) (ns : List (String × Node)) (x : String) :
    candIds name (eraseA ns x) = removeAll (candIds name ns) x := by
  induction ns with
  | nil => rfl
  | cons kv t ih =>
    obtain ⟨k, v⟩ := kv
    by_cases hkx : k = x
    · by_cases hc : v.kind = NodeKind.folder ∧ v.title = name
      · simp only [eraseA, if_pos hkx, candIds, if_pos hc, removeAll, if_pos hkx]
        exact ih
      · simp only [eraseA, if_pos hkx, candIds, if_neg hc]
        exact ih
    · by_cases hc : v.kind = NodeKind.folder ∧ v.title = name
      · simp only [eraseA, if_neg hkx, candIds, if_pos hc, removeAll, if_neg hkx]
        rw [ih]
      · simp only [eraseA, if_neg hkx, candIds, if_neg hc]
        exact ih

theorem candIds_upsertA_cand {nd : Node} (hk : nd.kind = NodeKind.folder)
    (ht : nd.title = name) (ns : List (String × Node)) (x : String) :
    candIds name (upsertA ns x nd) = x :: removeAll (candIds name ns) x := by
  simp only [upsertA, candIds, if_pos (And.intro hk ht)]
  rw [candIds_eraseA]

theorem lookupA_placeKids_ne (ks : List (String × List String)) {x p y : String}
    (hpy : p ≠ y) (i : Nat) :
    lookupA (placeKids ks x p i) y = (lookupA ks y).map (fun l => removeAll l x) := by
  unfold placeKids
  rw [lookupA_upsertA_ne _ hpy, lookupA_detachK]

theorem applyEvent_insert_root (s : Store) (x title : String) :
    applyEvent s (Event.insert x title NodeKind.folder ROOT 0) =
      reindex ⟨upsertA s.nodes x ⟨none, 0, title, NodeKind.folder⟩,
        placeKids s.kids x ROOT 0,
        urlPlace s.byUrl x ⟨none, 0, title, NodeKind.folder⟩⟩ := by
  show placeNode s x ⟨none, 0, title, NodeKind.folder⟩ ROOT 0 = _
  unfold placeNode
  rw [if_pos (Or.inl rfl)]

theorem candIds_insert_folder_root (s : Store) (name x : String) :
    candIds name (applyEvent s (Event.insert x name NodeKind.folder ROOT 0)).nodes =
      x :: removeAll (candIds name s.nodes) x := by
  rw [applyEvent_insert_root, candIds_reindex]
  exact candIds_upsertA_cand rfl rfl s.nodes x

theorem lookupA_insert_folder_root_ne (s : Store) (name x : String) {y : String}
    (hxy : x ≠ y) :
    lookupA (applyEvent s (Event.insert x name NodeKind.folder ROOT 0)).nodes y = none ↔
      lookupA s.nodes y = none := by
  rw [applyEvent_insert_root, lookupA_reindex_none, lookupA_upsertA_ne _ hxy]

theorem lookupA_insert_folder_root_self (s : Store) (name x : String) :
    lookupA (applyEvent s (Event.insert x name NodeKind.folder ROOT 0)).nodes x ≠ none := by
  rw [applyEvent_insert_root]
  intro h
  rw [lookupA_reindex_none, lookupA_upsertA_self] at h
  exact Option.noConfusion h

theorem kids_insert_folder_root (s : Store) (name x : String) {y : String}
    (hy : y ≠ ROOT) :
    lookupA (applyEvent s (Event.insert x name NodeKind.folder ROOT 0)).kids y =
      (lookupA s.kids y).map (fun l => removeAll l x) := by
  rw [applyEvent_insert_root]
  show lookupA (placeKids s.kids x ROOT 0) y = _
  exact lookupA_placeKids_ne s.kids (fun he => hy he.symm) 0

theorem candIds_removeLeaf (name : String) (s : Store) {x : String}
    (hx : lookupA s.nodes x ≠ none) (hk : kidsOfL s.kids x = []) :
    candIds name (removeLeaf s x).nodes = removeAll (candIds name s.nodes) x := by
  unfold removeLeaf
  rw [if_pos ⟨hx, hk⟩, candIds_reindex, candIds_eraseA]

theorem lookupA_removeLeaf_self (s : Store) {x : String}
    (hx : lookupA s.nodes x ≠ none) (hk : kidsOfL s.kids x = []) :
    lookupA (removeLeaf s x).nodes x = none := by
  unfold removeLeaf
  rw [if_pos ⟨hx, hk⟩, lookupA_reindex_none]
  exact lookupA_eraseA_self _ x

theorem raceFinish_spec (S2 : Store) (name f1 f2 : String)
    (h2c : candIds name S2.nodes = [f2, f1])
    (h2f1 : lookupA S2.nodes f1 ≠ none) (h2f2 : lookupA S2.nodes f2 ≠ none)
    (h2k1 : kidsOfL S2.kids f1 = []) (h2k2 : kidsOfL S2.kids f2 = [])
    (hne : f1 ≠ f2) :
    ∃ w s3, raceFinish S2 name f1 f2 = (s3, some w, some w) ∧
      (w = f1 ∨ w = f2) ∧ candIds name s3.nodes = [w] ∧
      lookupA s3.nodes (if w = f1 then f2 else f1) = none := by
  have hne2 : ¬ (f2 = f1) := fun he => hne he.symm
  have hsr : stashRoot S2 name =
      if depth S2 f2 ≤ depth S2 f1 then some f2 else some f1 := by
    unfold stashRoot
    rw [h2c]
    rfl
  by_cases hd : depth S2 f2 ≤ depth S2 f1
  · -- the second-created folder wins; the first one self-deletes
    have hsr2 : stashRoot S2 name = some f2 := by rw [hsr, if_pos hd]
    have hs3 : applyEvent S2 (Event.removeTree f1) = removeLeaf S2 f1 :=
      removeTree_of_no_children h2k1
    have h3c : candIds name (removeLeaf S2 f1).nodes = [f2] := by
      rw [candIds_removeLeaf name S2 h2f1 h2k1, h2c]
      simp [removeAll, hne2]
    have h3root : stashRoot (removeLeaf S2 f1) name = some f2 := by
      unfold stashRoot
      rw [h3c]
      rfl
    refine ⟨f2, removeLeaf S2 f1, ?_, Or.inr rfl, h3c, ?_⟩
    · have hstep : raceFinish S2 name f1 f2 =
          (applyEvent S2 (Event.removeTree f1),
            stashRoot (applyEvent S2 (Event.removeTree f1)) name,
            stashRoot (applyEvent S2 (Event.removeTree f1)) name) := by
        simp only [raceFinish, hsr2, if_neg hne2]
      rw [hstep, hs3, h3root]
    · rw [if_neg hne2]
      exact lookupA_removeLeaf_self S2 h2f1 h2k1
  · -- the first-created folder wins; the second one self-deletes
    have hsr2 : stashRoot S2 name = some f1 := by rw [hsr, if_neg hd]
    have hs3 : applyEvent S2 (Event.removeTree f2) = removeLeaf S2 f2 :=
      removeTree_of_no_children h2k2
    have h3c : candIds name (removeLeaf S2 f2).nodes = [f1] := by
      rw [candIds_removeLeaf name S2 h2f2 h2k2, h2c]
      simp [removeAll, hne]
    have h3root : stashRoot (removeLeaf S2 f2) name = some f1 := by
      unfold stashRoot
      rw [h3c]
      rfl
    refine ⟨f1, removeLeaf S2 f2, ?_, Or.inl rfl, h3c, ?_⟩
    · have hstep : raceFinish S2 name f1 f2 =
          (applyEvent S2 (Event.removeTree f2),
            stashRoot (applyEvent S2 (Event.removeTree f2)) name,
            stashRoot (applyEvent S2 (Event.removeTree f2)) name) := by
        simp [raceFinish, hsr2]
      rw [hstep, hs3, h3root]
    · rw [if_pos rfl]
      exact lookupA_removeLeaf_self S2 h2f2 h2k2

/-- C2: two `ensureStashRoot()` calls racing when no designated root
exists — both create a folder with the designated name at the top level;
after both echoes are applied, the duplicate self-deletes, both returned
promises resolve to the same surviving node, exactly one folder with the
designated name remains in the tree, and the extra folder created by the
race has been removed from the by-id map. -/
theorem ensure_stash_root_race (s : Store) (name f1 f2 : String)
    (hc : candIds name s.nodes = [])
    (hk1 : lookupA s.kids f1 = none) (hk2 : lookupA s.kids f2 = none)
    (hne : f1 ≠ f2) (hr1 : f1 ≠ ROOT) (hr2 : f2 ≠ ROOT) :
    ∃ w s3, raceEnsureStashRoot s name f1 f2 = (s3, some w, some w) ∧
      (w = f1 ∨ w = f2) ∧ candIds name s3.nodes = [w] ∧
      lookupA s3.nodes (if w = f1 then f2 else f1) = none := by
  have h1c : candIds name
      (applyEvent s (Event.insert f1 name NodeKind.folder ROOT 0)).nodes = [f1] := by
    rw [candIds_insert_folder_root, hc]
    rfl
  have h1k1 : lookupA
      (applyEvent s (Event.insert f1 name NodeKind.folder ROOT 0)).kids f1 = none := by
    rw [kids_insert_folder_root s name f1 hr1, hk1]
    rfl
  have h1k2 : lookupA
      (applyEvent s (Event.insert f1 name NodeKind.folder ROOT 0)).kids f2 = none := by
    rw [kids_insert_folder_root s name f1 hr2, hk2]
    rfl
  have h1f1 : lookupA
      (applyEvent s (Event.insert f1 name NodeKind.folder ROOT 0)).nodes f1 ≠ none :=
    lookupA_insert_folder_root_self s name f1
  have h2c : candIds name
      (applyEvent (applyEvent s (Event.insert f1 name NodeKind.folder ROOT 0))
        (Event.insert f2 name NodeKind.folder ROOT 0)).nodes = [f2, f1] := by
    rw [candIds_insert_folder_root, h1c]
    simp [removeAll, hne]
  have h2k1 : kidsOfL
      (applyEvent (applyEvent s (Event.insert f1 name NodeKind.folder ROOT 0))
        (Event.insert f2 name NodeKind.folder ROOT 0)).kids f1 = [] := by
    unfold kidsOfL
    rw [kids_insert_folder_root _ name f2 hr1, h1k1]
    rfl
  have h2k2 : kidsOfL
      (applyEvent (applyEvent s (Event.insert f1 name NodeKind.folder ROOT 0))
        (Event.insert f2 name NodeKind.folder ROOT 0)).kids f2 = [] := by
    unfold kidsOfL
    rw [kids_insert_folder_root _ name f2 hr2, h1k2]
    rfl
  have h2f1 : lookupA
      (applyEvent (applyEvent s (Event.insert f1 name NodeKind.folder ROOT 0))
        (Event.insert f2 name NodeKind.folder ROOT 0)).nodes f1 ≠ none := by
    intro h
    rw [lookupA_insert_folder_root_ne _ name f2 (fun he => hne he.symm)] at h
    exact h1f1 h
  have h2f2 : lookupA
      (applyEvent (applyEvent s (Event.insert f1 name NodeKind.folder ROOT 0))
        (Event.insert f2 name NodeKind.folder ROOT 0)).nodes f2 ≠ none :=
    lookupA_insert_folder_root_self _ name f2
  exact raceFinish_spec _ name f1 f2 h2c h2f1 h2f2 h2k1 h2k2 hne

/-- Witness for C2: the race run from an empty tree with fresh folder ids
`a` and `b`. -/
theorem ensure_stash_root_race_witness :
    ∃ w s3, raceEnsureStashRoot emptyStore "Tab Stash" "a" "b" = (s3, some w, some w) ∧
      (w = "a" ∨ w = "b") ∧ candIds "Tab Stash" s3.nodes = [w] ∧
      lookupA s3.nodes (if w = "a" then "b" else "a") = none :=
  ensure_stash_root_race emptyStore "Tab Stash" "a" "b" (by decide) (by decide)
    (by decide) (by decide) (by decide) (by decide)

end TabStash
